import Mathlib

/-!
Verification of the capability-dispatch resolution engine specified for the
`By-Example-Notes---Rust` repository.

The repository's source (`src/by_example_notes/src/traits_basic.rs`) is a set of
instructional trait snippets; the engine itself (Capability Registry and
Dispatch Resolver) is described only in the specification.  The two trait
examples that do appear in the source are embedded directly below
(`Example1`, `Example2`); the registry and resolver are modelled from the
specification, each such definition carrying a doc comment saying so.
-/

namespace Example1

/-- Embedded from `traits_basic.rs` example 1: `pub struct StructName` with a
single `String` field. -/
structure StructName where
  struct_field : String
deriving DecidableEq

/-- Embedded from `traits_basic.rs` example 1: `impl TraitName for StructName`
whose `function_name` formats and returns `self.struct_field`. -/
def StructName.function_name (self : StructName) : String :=
  self.struct_field

end Example1

namespace Example2

/-- Embedded from `traits_basic.rs` example 2: `pub struct StructName` with a
single `String` field. -/
structure StructName where
  struct_field : String
deriving DecidableEq

/-- Embedded from `traits_basic.rs` example 2: the default body supplied by the
trait itself, `String::from("(Default implementation...)")`.  The receiver is
taken as a parameter, exactly as `&self` is in the source; the body never uses
it. -/
def TraitName.default_function_name (_self : StructName) : String :=
  "(Default implementation...)"

/-- Embedded from `traits_basic.rs` example 2: `impl TraitName for StructName {}`
— the empty impl, so `function_name` dispatches to the trait's default body. -/
def StructName.function_name (self : StructName) : String :=
  TraitName.default_function_name self

end Example2

/-- A method table: effective method bodies keyed by method name.  Bodies are
represented opaquely by the string a call to them yields. -/
abbrev Table := List (String × String)

/-- Modelled from the spec (§4 data model): a method signature optionally
carries a default body. -/
structure MethodSig where
  name : String
  defaultBody : Option String
deriving DecidableEq

/-- Modelled from the spec (§3 data model): a capability is an identifier plus
an ordered set of method signatures. -/
structure Capability where
  name : String
  methods : List MethodSig
deriving DecidableEq

/-- Modelled from the spec (§3, §9): a conformance records, for a
(ConcreteType, Capability) pair, the effective method table — overrides merged
eagerly with defaults at declaration time. -/
structure Conformance where
  typeName : String
  capName : String
  table : Table
deriving DecidableEq

/-- Modelled from the spec (§4.2 state machine): the registry is `Open`
(accepting declarations) or `Sealed` (accepting lookups only). -/
inductive RegState where
  | Open : RegState
  | Sealed : RegState
deriving DecidableEq

/-- Modelled from the spec (§4.1): the Capability Registry owns the declared
capabilities and conformances, together with its open/sealed state. -/
structure Registry where
  caps : List Capability
  confs : List Conformance
  state : RegState
deriving DecidableEq

/-- Modelled from the spec (§7): the error kinds of the engine.
`NotImplemented` names the capability that is missing. -/
inductive RegError where
  | DuplicateCapability : RegError
  | MalformedSignature : RegError
  | UnknownCapability : RegError
  | DuplicateConformance : RegError
  | MissingImplementation : RegError
  | NotImplemented : String → RegError
  | TypeMismatch : RegError
  | AmbiguousMethod : RegError
  | RegistryClosed : RegError
deriving DecidableEq

/-- First body bound to a given key in an association list (used for override
lists and for effective method tables). -/
def ovLookup : List (String × String) → String → Option String
  | [], _ => none
  | p :: rest, m => if p.1 = m then some p.2 else ovLookup rest m

/-- First capability with the given name. -/
def findCap : List Capability → String → Option Capability
  | [], _ => none
  | c :: rest, n => if c.name = n then some c else findCap rest n

/-- First conformance for the given (type, capability) pair. -/
def findConf : List Conformance → String → String → Option Conformance
  | [], _, _ => none
  | c :: rest, t, n =>
    if c.typeName = t ∧ c.capName = n then some c else findConf rest t n

/-- Whether some method name repeats within a signature set. -/
def dupNames : List MethodSig → Bool
  | [] => false
  | m :: rest =>
    if rest.any (fun s => s.name == m.name) then true else dupNames rest

/-- Modelled from the spec (§4.2 tie-break, §9 default methods): the body a
method signature contributes to the merged table — the override when the
conformance supplies one, the capability default otherwise. -/
def effectiveBody (sig : MethodSig) (ov : Table) : Option String :=
  match ovLookup ov sig.name with
  | some b => some b
  | none => sig.defaultBody

/-- Modelled from the spec (§4.1 `declareConformance`, §9): eager merge of
overrides with defaults; fails with `MissingImplementation` if some method has
no default and no override. -/
def buildTable : List MethodSig → Table → Except RegError Table
  | [], _ => .ok []
  | sig :: rest, ov =>
    match effectiveBody sig ov with
    | none => .error .MissingImplementation
    | some b =>
      match buildTable rest ov with
      | .error e => .error e
      | .ok tbl => .ok ((sig.name, b) :: tbl)

/-- Modelled from the spec (§4.1): `declareCapability(name, methodSignatures,
defaults)` — defaults ride inside the signatures per §9.  Fails
`RegistryClosed` after sealing, `DuplicateCapability` on a name clash,
`MalformedSignature` on a repeated method name. -/
def declareCapability (r : Registry) (n : String) (ms : List MethodSig) :
    Except RegError Registry :=
  match r.state with
  | .Sealed => .error .RegistryClosed
  | .Open =>
    match findCap r.caps n with
    | some _ => .error .DuplicateCapability
    | none =>
      if dupNames ms then .error .MalformedSignature
      else .ok { r with caps := r.caps ++ [⟨n, ms⟩] }

/-- Modelled from the spec (§4.1): `declareConformance(type, capability,
overrides)`.  Fails `RegistryClosed` after sealing, `UnknownCapability` when
the capability was never declared, `DuplicateConformance` on re-declaration of
an existing pair, and `MissingImplementation` via the eager merge. -/
def declareConformance (r : Registry) (t c : String) (ov : Table) :
    Except RegError Registry :=
  match r.state with
  | .Sealed => .error .RegistryClosed
  | .Open =>
    match findCap r.caps c with
    | none => .error .UnknownCapability
    | some cap =>
      match findConf r.confs t c with
      | some _ => .error .DuplicateConformance
      | none =>
        match buildTable cap.methods ov with
        | .error e => .error e
        | .ok tbl => .ok { r with confs := r.confs ++ [⟨t, c, tbl⟩] }

/-- Modelled from the spec (§4.1): `lookup(type, capability)` returns the
effective method table, or `NotImplemented` (naming the capability) if no
conformance was declared. -/
def lookup (r : Registry) (t c : String) : Except RegError Table :=
  match findConf r.confs t c with
  | some conf => .ok conf.table
  | none => .error (.NotImplemented c)

/-- Modelled from the spec (§4.2, §6): the `seal()` operation (named `sealRegistry` here since `seal` is a
reserved token) — the one-way transition from `Open` to `Sealed`. -/
def sealRegistry (r : Registry) : Registry :=
  { r with state := .Sealed }

/-- Runs a declaration step against the registry: on success the registry is
replaced, on a typed failure the prior state is kept unchanged. -/
def runDecl (r : Registry) (step : Registry → Except RegError Registry) :
    Registry :=
  match step r with
  | .ok r' => r'
  | .error _ => r

/-- Modelled from the spec (§3): a bound attached to a call site — a single
capability, a conjunction of capabilities, or a same-type linkage tying the
parameters to one concrete type (with its capability bound). -/
inductive Bound where
  | single : String → Bound
  | conj : List String → Bound
  | sameType : String → Bound
deriving DecidableEq

/-- Looks up each capability of a conjunction left to right, failing
`NotImplemented` naming the first missing one. -/
def lookupCaps (r : Registry) : List String → String → Except RegError (List (String × Table))
  | [], _ => .ok []
  | c :: rest, t =>
    match lookup r t c with
    | .error _ => .error (.NotImplemented c)
    | .ok tbl =>
      match lookupCaps r rest t with
      | .error e => .error e
      | .ok tbls => .ok ((c, tbl) :: tbls)

/-- Modelled from the spec (§4.2): `resolveFixed(bound, concreteType)` for the
static/monomorphized path.  The concrete types of all the call's arguments are
supplied; a same-type bound first checks that they all coincide, failing
`TypeMismatch` before any capability lookup. -/
def resolveFixed (r : Registry) (bound : Bound) (types : List String) :
    Except RegError (List (String × Table)) :=
  match bound with
  | .single c =>
    match types with
    | [] => .error .TypeMismatch
    | t :: _ => lookupCaps r [c] t
  | .conj cs =>
    match types with
    | [] => .error .TypeMismatch
    | t :: _ => lookupCaps r cs t
  | .sameType c =>
    match types with
    | [] => .error .TypeMismatch
    | t :: rest =>
      if rest.all (fun u => u == t) then lookupCaps r [c] t
      else .error .TypeMismatch

/-- Modelled from the spec (§9 dynamic dispatch): an opaque handle is a tagged
union — type identifier plus boxed payload. -/
structure Handle where
  typeTag : String
  payload : String
deriving DecidableEq

/-- Modelled from the spec (§4.2): `resolveIndirect(bound, handle)` recovers
the concrete type from the handle's runtime tag and delegates to
`resolveFixed`.  Each handle resolves independently: there is no cross-handle
type-equality check. -/
def resolveIndirect (r : Registry) (bound : Bound) (h : Handle) :
    Except RegError (List (String × Table)) :=
  resolveFixed r bound [h.typeTag]

/-- A call names a method either unqualified or qualified with a capability
name (the spec's `A.m`). -/
inductive MethodCall where
  | unqualified : String → MethodCall
  | qualified : String → String → MethodCall
deriving DecidableEq

/-- First resolved table belonging to the given capability name. -/
def findTable : List (String × Table) → String → Option (String × Table)
  | [], _ => none
  | p :: rest, c => if p.1 = c then some p else findTable rest c

/-- The resolved tables that define a method of the given name. -/
def tablesWith (m : String) (tbls : List (String × Table)) :
    List (String × Table) :=
  tbls.filter (fun p => (ovLookup p.2 m).isSome)

/-- Modelled from the spec (§4.2 tie-break): invoking a method against the
resolved tables.  An unqualified name defined by more than one capability of
the bound fails `AmbiguousMethod`; a qualified call selects that capability's
table directly. -/
def invoke (tbls : List (String × Table)) (call : MethodCall) :
    Except RegError String :=
  match call with
  | .qualified c m =>
    match findTable tbls c with
    | none => .error (.NotImplemented c)
    | some p =>
      match ovLookup p.2 m with
      | some b => .ok b
      | none => .error (.NotImplemented m)
  | .unqualified m =>
    match tablesWith m tbls with
    | [] => .error (.NotImplemented m)
    | [p] =>
      match ovLookup p.2 m with
      | some b => .ok b
      | none => .error (.NotImplemented m)
    | _ => .error .AmbiguousMethod

/-- Resolving a fixed bound and then invoking a method on the result. -/
def callFixed (r : Registry) (bound : Bound) (types : List String)
    (call : MethodCall) : Except RegError String :=
  match resolveFixed r bound types with
  | .error e => .error e
  | .ok tbls => invoke tbls call

/-- The empty, open registry. -/
def emptyRegistry : Registry :=
  ⟨[], [], .Open⟩

/-! ### Helper lemmas -/

theorem findCap_append {l1 l2 : List Capability} {n : String}
    (h : findCap l1 n = none) :
    findCap (l1 ++ l2) n = findCap l2 n := by
  induction l1 with
  | nil => simp
  | cons c rest ih =>
    rw [List.cons_append]
    simp only [findCap] at h ⊢
    split at h
    · exact absurd h (by simp)
    next hne =>
      rw [if_neg hne]
      exact ih h

theorem findConf_append {l1 l2 : List Conformance} {t c : String}
    (h : findConf l1 t c = none) :
    findConf (l1 ++ l2) t c = findConf l2 t c := by
  induction l1 with
  | nil => simp
  | cons x rest ih =>
    rw [List.cons_append]
    simp only [findConf] at h ⊢
    split at h
    · exact absurd h (by simp)
    next hne =>
      rw [if_neg hne]
      exact ih h

theorem dupNames_false_nodup {ms : List MethodSig} (h : dupNames ms = false) :
    (ms.map MethodSig.name).Nodup := by
  induction ms with
  | nil => simp
  | cons m rest ih =>
    unfold dupNames at h
    split at h
    · exact absurd h (by simp)
    next hany =>
      simp only [List.map_cons, List.nodup_cons]
      refine ⟨?_, ih h⟩
      intro hmem
      apply hany
      obtain ⟨s, hs, hname⟩ := List.mem_map.mp hmem
      exact List.any_eq_true.mpr ⟨s, hs, by simpa using hname⟩

theorem declareCapability_ok {r : Registry} {n : String} {ms : List MethodSig}
    {r' : Registry} (h : declareCapability r n ms = .ok r') :
    r.state = .Open ∧ findCap r.caps n = none ∧ dupNames ms = false ∧
      r' = { r with caps := r.caps ++ [⟨n, ms⟩] } := by
  unfold declareCapability at h
  split at h
  · exact absurd h (by simp)
  next hstate =>
    split at h
    · exact absurd h (by simp)
    next hfind =>
      split at h
      · exact absurd h (by simp)
      next hdup =>
        simp only [Except.ok.injEq] at h
        exact ⟨hstate, hfind, by simpa using hdup, h.symm⟩

theorem declareConformance_ok {r : Registry} {t c : String} {ov : Table}
    {r' : Registry} (h : declareConformance r t c ov = .ok r') :
    ∃ cap tbl, r.state = .Open ∧ findCap r.caps c = some cap ∧
      findConf r.confs t c = none ∧ buildTable cap.methods ov = .ok tbl ∧
      r' = { r with confs := r.confs ++ [⟨t, c, tbl⟩] } := by
  unfold declareConformance at h
  split at h
  · exact absurd h (by simp)
  next hstate =>
    split at h
    · exact absurd h (by simp)
    next cap hfind =>
      split at h
      · exact absurd h (by simp)
      next hconf =>
        split at h
        · exact absurd h (by simp)
        next tbl hbuild =>
          simp only [Except.ok.injEq] at h
          exact ⟨cap, tbl, hstate, hfind, hconf, hbuild, h.symm⟩

theorem buildTable_ok_entry {methods : List MethodSig} {ov tbl : Table}
    (hnd : (methods.map MethodSig.name).Nodup)
    (h : buildTable methods ov = .ok tbl) :
    ∀ sig ∈ methods, ovLookup tbl sig.name = effectiveBody sig ov := by
  induction methods generalizing tbl with
  | nil => intro sig hs; simp at hs
  | cons m rest ih =>
    intro sig hs
    cases heff : effectiveBody m ov with
    | none =>
      have hstep : buildTable (m :: rest) ov = .error .MissingImplementation := by
        simp [buildTable, heff]
      rw [hstep] at h
      exact absurd h (by simp)
    | some b =>
      cases hrest : buildTable rest ov with
      | error e =>
        have hstep : buildTable (m :: rest) ov = .error e := by
          simp [buildTable, heff, hrest]
        rw [hstep] at h
        exact absurd h (by simp)
      | ok tbl' =>
        have hstep : buildTable (m :: rest) ov = .ok ((m.name, b) :: tbl') := by
          simp [buildTable, heff, hrest]
        rw [hstep] at h
        simp only [Except.ok.injEq] at h
        subst h
        simp only [List.map_cons, List.nodup_cons] at hnd
        rcases List.mem_cons.mp hs with rfl | hmem
        · simp [ovLookup, heff]
        · have hne : m.name ≠ sig.name := by
            intro he
            exact hnd.1 (he ▸ List.mem_map_of_mem MethodSig.name hmem)
          simp only [ovLookup]
          rw [if_neg hne]
          exact ih hnd.2 hrest sig hmem

theorem buildTable_ok_mem {methods : List MethodSig} {ov tbl : Table}
    (h : buildTable methods ov = .ok tbl) :
    ∀ p ∈ tbl, ∃ sig ∈ methods, p.1 = sig.name ∧ effectiveBody sig ov = some p.2 := by
  induction methods generalizing tbl with
  | nil =>
    intro p hp
    simp only [buildTable, Except.ok.injEq] at h
    subst h
    simp at hp
  | cons m rest ih =>
    intro p hp
    cases heff : effectiveBody m ov with
    | none =>
      have hstep : buildTable (m :: rest) ov = .error .MissingImplementation := by
        simp [buildTable, heff]
      rw [hstep] at h
      exact absurd h (by simp)
    | some b =>
      cases hrest : buildTable rest ov with
      | error e =>
        have hstep : buildTable (m :: rest) ov = .error e := by
          simp [buildTable, heff, hrest]
        rw [hstep] at h
        exact absurd h (by simp)
      | ok tbl' =>
        have hstep : buildTable (m :: rest) ov = .ok ((m.name, b) :: tbl') := by
          simp [buildTable, heff, hrest]
        rw [hstep] at h
        simp only [Except.ok.injEq] at h
        subst h
        rcases List.mem_cons.mp hp with rfl | hmem
        · exact ⟨m, List.mem_cons_self m rest, rfl, heff⟩
        · obtain ⟨sig, hsig, hn, he⟩ := ih hrest p hmem
          exact ⟨sig, List.mem_cons_of_mem m hsig, hn, he⟩

theorem buildTable_error_iff {methods : List MethodSig} {ov : Table} :
    buildTable methods ov = .error .MissingImplementation ↔
      ∃ sig ∈ methods, effectiveBody sig ov = none := by
  induction methods with
  | nil => simp [buildTable]
  | cons m rest ih =>
    cases heff : effectiveBody m ov with
    | none =>
      have hstep : buildTable (m :: rest) ov = .error .MissingImplementation := by
        simp [buildTable, heff]
      rw [hstep]
      exact iff_of_true rfl ⟨m, List.mem_cons_self m rest, heff⟩
    | some b =>
      have hbne : effectiveBody m ov ≠ none := by rw [heff]; simp
      cases hrest : buildTable rest ov with
      | error e =>
        have hstep : buildTable (m :: rest) ov = .error e := by
          simp [buildTable, heff, hrest]
        rw [hstep]
        rw [hrest] at ih
        constructor
        · intro he
          simp only [Except.error.injEq] at he
          obtain ⟨sig, hs, hss⟩ := ih.mp (by rw [he])
          exact ⟨sig, List.mem_cons_of_mem m hs, hss⟩
        · rintro ⟨sig, hs, hss⟩
          rcases List.mem_cons.mp hs with rfl | hmem
          · exact absurd hss hbne
          · have h2 := ih.mpr ⟨sig, hmem, hss⟩
            simp only [Except.error.injEq] at h2
            rw [h2]
      | ok tbl' =>
        have hstep : buildTable (m :: rest) ov = .ok ((m.name, b) :: tbl') := by
          simp [buildTable, heff, hrest]
        rw [hstep]
        rw [hrest] at ih
        constructor
        · intro he
          exact absurd he (by simp)
        · rintro ⟨sig, hs, hss⟩
          rcases List.mem_cons.mp hs with rfl | hmem
          · exact absurd hss hbne
          · have h2 := ih.mpr ⟨sig, hmem, hss⟩
            exact absurd h2 (by simp)

theorem buildTable_ok_of_all {methods : List MethodSig} {ov : Table}
    (h : ∀ sig ∈ methods, (effectiveBody sig ov).isSome) :
    ∃ tbl, buildTable methods ov = .ok tbl := by
  induction methods with
  | nil => exact ⟨[], rfl⟩
  | cons m rest ih =>
    obtain ⟨tbl, htbl⟩ := ih (fun sig hs => h sig (List.mem_cons_of_mem m hs))
    have hm := h m (List.mem_cons_self m rest)
    cases heff : effectiveBody m ov with
    | none => rw [heff] at hm; exact absurd hm (by simp)
    | some b =>
      refine ⟨(m.name, b) :: tbl, ?_⟩
      simp [buildTable, heff, htbl]

theorem declare_then_lookup {r0 r1 r2 : Registry} {C T : String}
    {methods : List MethodSig} {ov : Table}
    (h1 : declareCapability r0 C methods = .ok r1)
    (h2 : declareConformance r1 T C ov = .ok r2) :
    ∃ tbl, buildTable methods ov = .ok tbl ∧ lookup r2 T C = .ok tbl ∧
      (methods.map MethodSig.name).Nodup := by
  obtain ⟨hst, hfc, hdup, hr1⟩ := declareCapability_ok h1
  obtain ⟨cap, tbl, hst1, hfind1, hconf1, hbuild, hr2⟩ := declareConformance_ok h2
  have hcaps1 : r1.caps = r0.caps ++ [⟨C, methods⟩] := by rw [hr1]
  have hconfs1 : r1.confs = r0.confs := by rw [hr1]
  have hcap : cap = ⟨C, methods⟩ := by
    rw [hcaps1, findCap_append hfc] at hfind1
    simp [findCap] at hfind1
    exact hfind1.symm
  subst hcap
  refine ⟨tbl, hbuild, ?_, dupNames_false_nodup hdup⟩
  have hconfs2 : r2.confs = r1.confs ++ [⟨T, C, tbl⟩] := by rw [hr2]
  unfold lookup
  rw [hconfs2, findConf_append hconf1]
  simp [findConf]

/-- Claim C1: after declaring capability `C` and a conformance of type `T` to
`C` with (possibly partial) overrides, `lookup(T, C)` returns a method table
mapping each method of `C` to its override when the conformance supplies one
and to the capability's default body otherwise. -/
theorem claim_lookup_merges_overrides_and_defaults
    (r0 r1 r2 : Registry) (C T : String) (methods : List MethodSig) (ov : Table)
    (h1 : declareCapability r0 C methods = .ok r1)
    (h2 : declareConformance r1 T C ov = .ok r2) :
    ∃ tbl, lookup r2 T C = .ok tbl ∧
      ∀ sig ∈ methods,
        (∀ b, ovLookup ov sig.name = some b → ovLookup tbl sig.name = some b) ∧
        (ovLookup ov sig.name = none → ovLookup tbl sig.name = sig.defaultBody) := by
  obtain ⟨tbl, hbuild, hlook, hnd⟩ := declare_then_lookup h1 h2
  refine ⟨tbl, hlook, ?_⟩
  intro sig hs
  have hentry := buildTable_ok_entry hnd hbuild sig hs
  constructor
  · intro b hb
    rw [hentry]
    unfold effectiveBody
    rw [hb]
  · intro hnone
    rw [hentry]
    unfold effectiveBody
    rw [hnone]

/-- Witness for C1, the spec's scenario: capability `Describe{describe()}` with
default `"(default)"`, type `Widget` declared with no override — the lookup
yields the default body. -/
theorem claim_lookup_merges_overrides_and_defaults_witness :
    ∃ tbl,
      lookup (Registry.mk
          [Capability.mk "Describe" [MethodSig.mk "describe" (some "(default)")]]
          [Conformance.mk "Widget" "Describe" [("describe", "(default)")]]
          RegState.Open)
        "Widget" "Describe" = .ok tbl ∧
      ∀ sig ∈ [MethodSig.mk "describe" (some "(default)")],
        (∀ b, ovLookup [] sig.name = some b → ovLookup tbl sig.name = some b) ∧
        (ovLookup [] sig.name = none → ovLookup tbl sig.name = sig.defaultBody) :=
  claim_lookup_merges_overrides_and_defaults emptyRegistry
    (Registry.mk
      [Capability.mk "Describe" [MethodSig.mk "describe" (some "(default)")]]
      [] RegState.Open)
    (Registry.mk
      [Capability.mk "Describe" [MethodSig.mk "describe" (some "(default)")]]
      [Conformance.mk "Widget" "Describe" [("describe", "(default)")]]
      RegState.Open)
    "Describe" "Widget" [MethodSig.mk "describe" (some "(default)")] []
    (by rfl) (by rfl)

/-- Claim C6: when the conformance overrides every method of the capability,
`lookup(T, C)` returns exactly the overridden bodies — every table entry comes
from the overrides, and every method's entry equals its override; no default
body appears. -/
theorem claim_lookup_full_overrides
    (r0 r1 r2 : Registry) (C T : String) (methods : List MethodSig) (ov : Table)
    (h1 : declareCapability r0 C methods = .ok r1)
    (h2 : declareConformance r1 T C ov = .ok r2)
    (hfull : ∀ sig ∈ methods, (ovLookup ov sig.name).isSome) :
    ∃ tbl, lookup r2 T C = .ok tbl ∧
      (∀ p ∈ tbl, ovLookup ov p.1 = some p.2) ∧
      (∀ sig ∈ methods, ovLookup tbl sig.name = ovLookup ov sig.name) := by
  obtain ⟨tbl, hbuild, hlook, hnd⟩ := declare_then_lookup h1 h2
  refine ⟨tbl, hlook, ?_, ?_⟩
  · intro p hp
    obtain ⟨sig, hsig, hn, he⟩ := buildTable_ok_mem hbuild p hp
    have hov := hfull sig hsig
    cases hov2 : ovLookup ov sig.name with
    | none => rw [hov2] at hov; exact absurd hov (by simp)
    | some b =>
      unfold effectiveBody at he
      rw [hov2] at he
      rw [hn, hov2, ← he]
  · intro sig hs
    have hentry := buildTable_ok_entry hnd hbuild sig hs
    have hov := hfull sig hs
    cases hov2 : ovLookup ov sig.name with
    | none => rw [hov2] at hov; exact absurd hov (by simp)
    | some b =>
      rw [hentry]
      unfold effectiveBody
      rw [hov2]

/-- Witness for C6, the spec's scenario: type `Gadget` overriding `describe` to
return `"gadget"` — the lookup yields exactly the override. -/
theorem claim_lookup_full_overrides_witness :
    ∃ tbl,
      lookup (Registry.mk
          [Capability.mk "Describe" [MethodSig.mk "describe" (some "(default)")]]
          [Conformance.mk "Gadget" "Describe" [("describe", "gadget")]]
          RegState.Open)
        "Gadget" "Describe" = .ok tbl ∧
      (∀ p ∈ tbl, ovLookup [("describe", "gadget")] p.1 = some p.2) ∧
      (∀ sig ∈ [MethodSig.mk "describe" (some "(default)")],
        ovLookup tbl sig.name = ovLookup [("describe", "gadget")] sig.name) :=
  claim_lookup_full_overrides emptyRegistry
    (Registry.mk
      [Capability.mk "Describe" [MethodSig.mk "describe" (some "(default)")]]
      [] RegState.Open)
    (Registry.mk
      [Capability.mk "Describe" [MethodSig.mk "describe" (some "(default)")]]
      [Conformance.mk "Gadget" "Describe" [("describe", "gadget")]]
      RegState.Open)
    "Describe" "Gadget" [MethodSig.mk "describe" (some "(default)")]
    [("describe", "gadget")]
    (by rfl) (by rfl) (by decide)

theorem lookupCaps_ok_iff {r : Registry} {t : String} {cs : List String} :
    (∃ tbls, lookupCaps r cs t = .ok tbls) ↔
      ∀ c ∈ cs, ∃ tbl, lookup r t c = .ok tbl := by
  induction cs with
  | nil => simp [lookupCaps]
  | cons c rest ih =>
    constructor
    · rintro ⟨tbls, htbls⟩
      intro c' hc'
      cases hl : lookup r t c with
      | error e =>
        have hstep : lookupCaps r (c :: rest) t = .error (.NotImplemented c) := by
          simp [lookupCaps, hl]
        rw [hstep] at htbls
        exact absurd htbls (by simp)
      | ok tbl =>
        cases hrest : lookupCaps r rest t with
        | error e =>
          have hstep : lookupCaps r (c :: rest) t = .error e := by
            simp [lookupCaps, hl, hrest]
          rw [hstep] at htbls
          exact absurd htbls (by simp)
        | ok tbls' =>
          rcases List.mem_cons.mp hc' with rfl | hmem
          · exact ⟨tbl, hl⟩
          · exact (ih.mp ⟨tbls', hrest⟩) c' hmem
    · intro hall
      obtain ⟨tbl, hl⟩ := hall c (List.mem_cons_self c rest)
      obtain ⟨tbls', hrest⟩ :=
        ih.mpr (fun c' hc' => hall c' (List.mem_cons_of_mem c hc'))
      exact ⟨(c, tbl) :: tbls', by simp [lookupCaps, hl, hrest]⟩

theorem lookupCaps_ok_spec {r : Registry} {t : String} {cs : List String}
    {tbls : List (String × Table)} (h : lookupCaps r cs t = .ok tbls) :
    tbls.map Prod.fst = cs ∧ ∀ p ∈ tbls, lookup r t p.1 = .ok p.2 := by
  induction cs generalizing tbls with
  | nil =>
    simp only [lookupCaps, Except.ok.injEq] at h
    subst h
    simp
  | cons c rest ih =>
    cases hl : lookup r t c with
    | error e =>
      have hstep : lookupCaps r (c :: rest) t = .error (.NotImplemented c) := by
        simp [lookupCaps, hl]
      rw [hstep] at h
      exact absurd h (by simp)
    | ok tbl =>
      cases hrest : lookupCaps r rest t with
      | error e =>
        have hstep : lookupCaps r (c :: rest) t = .error e := by
          simp [lookupCaps, hl, hrest]
        rw [hstep] at h
        exact absurd h (by simp)
      | ok tbls' =>
        have hstep : lookupCaps r (c :: rest) t = .ok ((c, tbl) :: tbls') := by
          simp [lookupCaps, hl, hrest]
        rw [hstep] at h
        simp only [Except.ok.injEq] at h
        subst h
        obtain ⟨hmap, hmem⟩ := ih hrest
        refine ⟨by simp [hmap], ?_⟩
        intro p hp
        rcases List.mem_cons.mp hp with rfl | hm
        · exact hl
        · exact hmem p hm

theorem lookupCaps_first_missing {r : Registry} {t : String}
    (pre : List String) (c : String) (post : List String)
    (hpre : ∀ c' ∈ pre, ∃ tbl, lookup r t c' = .ok tbl)
    (hc : ∀ tbl, lookup r t c ≠ .ok tbl) :
    lookupCaps r (pre ++ c :: post) t = .error (.NotImplemented c) := by
  induction pre with
  | nil =>
    cases hl : lookup r t c with
    | error e => simp [lookupCaps, hl]
    | ok tbl => exact absurd hl (hc tbl)
  | cons c' rest ih =>
    obtain ⟨tbl, hl⟩ := hpre c' (List.mem_cons_self c' rest)
    have hres := ih (fun x hx => hpre x (List.mem_cons_of_mem c' hx))
    rw [List.cons_append]
    simp [lookupCaps, hl, hres]

/-- Claim C2: `resolveFixed` on a same-type bound whose argument types are not
all equal fails `TypeMismatch` for every registry — hence regardless of whether
every argument's type conforms to the bound capability, and without consulting
the registry at all (the check precedes any capability lookup). -/
theorem claim_same_type_bound_mismatch
    (r : Registry) (c t : String) (rest : List String)
    (h : rest.all (fun u => u == t) = false) :
    resolveFixed r (.sameType c) (t :: rest) = .error .TypeMismatch := by
  simp [resolveFixed, h]

/-- Witness for C2: two distinct concrete types `T1`, `T2`, both conforming to
capability `C`, still fail `TypeMismatch` under the same-type bound. -/
theorem claim_same_type_bound_mismatch_witness :
    resolveFixed
      (Registry.mk [Capability.mk "C" [MethodSig.mk "m" (some "(d)")]]
        [Conformance.mk "T1" "C" [("m", "(d)")],
         Conformance.mk "T2" "C" [("m", "(d)")]]
        RegState.Open)
      (.sameType "C") ["T1", "T2"] = .error .TypeMismatch :=
  claim_same_type_bound_mismatch
    (Registry.mk [Capability.mk "C" [MethodSig.mk "m" (some "(d)")]]
      [Conformance.mk "T1" "C" [("m", "(d)")],
       Conformance.mk "T2" "C" [("m", "(d)")]]
      RegState.Open)
    "C" "T1" ["T2"] (by decide)

/-- Claim C3: two handles of different concrete types, each conforming to the
bound capability, both resolve successfully and independently through
`resolveIndirect` — no `TypeMismatch` arises across handles, unlike the fixed
path's same-type bound. -/
theorem claim_indirect_heterogeneous_handles
    (r : Registry) (c : String) (h1 h2 : Handle) (t1 t2 : Table)
    (_hne : h1.typeTag ≠ h2.typeTag)
    (l1 : lookup r h1.typeTag c = .ok t1)
    (l2 : lookup r h2.typeTag c = .ok t2) :
    resolveIndirect r (.single c) h1 = .ok [(c, t1)] ∧
    resolveIndirect r (.single c) h2 = .ok [(c, t2)] := by
  constructor
  · simp [resolveIndirect, resolveFixed, lookupCaps, l1]
  · simp [resolveIndirect, resolveFixed, lookupCaps, l2]

/-- Witness for C3: handles tagged `T1` and `T2`, both types conforming to
`C`, each resolve indirectly with no error. -/
theorem claim_indirect_heterogeneous_handles_witness :
    resolveIndirect
      (Registry.mk [Capability.mk "C" [MethodSig.mk "m" (some "(d)")]]
        [Conformance.mk "T1" "C" [("m", "(d)")],
         Conformance.mk "T2" "C" [("m", "(d)")]]
        RegState.Sealed)
      (.single "C") (Handle.mk "T1" "v1") = .ok [("C", [("m", "(d)")])] ∧
    resolveIndirect
      (Registry.mk [Capability.mk "C" [MethodSig.mk "m" (some "(d)")]]
        [Conformance.mk "T1" "C" [("m", "(d)")],
         Conformance.mk "T2" "C" [("m", "(d)")]]
        RegState.Sealed)
      (.single "C") (Handle.mk "T2" "v2") = .ok [("C", [("m", "(d)")])] :=
  claim_indirect_heterogeneous_handles
    (Registry.mk [Capability.mk "C" [MethodSig.mk "m" (some "(d)")]]
      [Conformance.mk "T1" "C" [("m", "(d)")],
       Conformance.mk "T2" "C" [("m", "(d)")]]
      RegState.Sealed)
    "C" (Handle.mk "T1" "v1") (Handle.mk "T2" "v2")
    [("m", "(d)")] [("m", "(d)")]
    (by decide) (by rfl) (by rfl)

/-- Claim C4: a conjunction bound resolves successfully exactly when the
concrete type conforms to every listed capability; success yields the merged
tables, one per capability in declared order; and when conformance to some
capability is missing, the failure is `NotImplemented` naming the first
missing capability in left-to-right order. -/
theorem claim_conjunction_bound_resolution
    (r : Registry) (caps : List String) (t : String) :
    ((∃ tbls, resolveFixed r (.conj caps) [t] = .ok tbls) ↔
      ∀ c ∈ caps, ∃ tbl, lookup r t c = .ok tbl) ∧
    (∀ tbls, resolveFixed r (.conj caps) [t] = .ok tbls →
      tbls.map Prod.fst = caps ∧ ∀ p ∈ tbls, lookup r t p.1 = .ok p.2) ∧
    (∀ pre c post, caps = pre ++ c :: post →
      (∀ c' ∈ pre, ∃ tbl, lookup r t c' = .ok tbl) →
      (∀ tbl, lookup r t c ≠ .ok tbl) →
      resolveFixed r (.conj caps) [t] = .error (.NotImplemented c)) := by
  have hres : resolveFixed r (.conj caps) [t] = lookupCaps r caps t := rfl
  refine ⟨?_, ?_, ?_⟩
  · rw [hres]
    exact lookupCaps_ok_iff
  · intro tbls h
    rw [hres] at h
    exact lookupCaps_ok_spec h
  · intro pre c post hceq hpre hc
    rw [hres, hceq]
    exact lookupCaps_first_missing pre c post hpre hc

/-- Witness for C4: type `X` conforms to `A` but not `B`; the conjunction
bound `{A, B}` fails `NotImplemented "B"`, the first (and only) missing
capability. -/
theorem claim_conjunction_bound_resolution_witness :
    resolveFixed
      (Registry.mk
        [Capability.mk "A" [MethodSig.mk "m" (some "(a)")],
         Capability.mk "B" [MethodSig.mk "m" (some "(b)")]]
        [Conformance.mk "X" "A" [("m", "(a)")]]
        RegState.Open)
      (.conj ["A", "B"]) ["X"] = .error (.NotImplemented "B") :=
  (claim_conjunction_bound_resolution
    (Registry.mk
      [Capability.mk "A" [MethodSig.mk "m" (some "(a)")],
       Capability.mk "B" [MethodSig.mk "m" (some "(b)")]]
      [Conformance.mk "X" "A" [("m", "(a)")]]
      RegState.Open)
    ["A", "B"] "X").2.2 ["A"] "B" [] rfl
    (by
      intro c' hc'
      rw [List.mem_singleton] at hc'
      subst hc'
      exact ⟨[("m", "(a)")], rfl⟩)
    (by
      intro tbl htbl
      rw [show lookup
        (Registry.mk
          [Capability.mk "A" [MethodSig.mk "m" (some "(a)")],
           Capability.mk "B" [MethodSig.mk "m" (some "(b)")]]
          [Conformance.mk "X" "A" [("m", "(a)")]]
          RegState.Open) "X" "B" = .error (.NotImplemented "B") from rfl] at htbl
      exact absurd htbl (by simp))

theorem findTable_mem {tbls : List (String × Table)} {c : String}
    {p : String × Table} (h : findTable tbls c = some p) :
    p ∈ tbls ∧ p.1 = c := by
  induction tbls with
  | nil => simp [findTable] at h
  | cons q rest ih =>
    simp only [findTable] at h
    split at h
    next heq =>
      simp only [Option.some.injEq] at h
      subst h
      exact ⟨List.mem_cons_self q rest, heq⟩
    next =>
      obtain ⟨hm, hc⟩ := ih h
      exact ⟨List.mem_cons_of_mem q hm, hc⟩

theorem exists_cons_cons_of_two_mem {α : Type} {l : List α} {a b : α}
    (ha : a ∈ l) (hb : b ∈ l) (hne : a ≠ b) :
    ∃ x y tl, l = x :: y :: tl := by
  cases l with
  | nil => simp at ha
  | cons x rest =>
    cases rest with
    | nil =>
      simp at ha hb
      exact absurd (ha.trans hb.symm) hne
    | cons y tl => exact ⟨x, y, tl, rfl⟩

theorem invoke_unqualified_ambiguous {tbls : List (String × Table)} {m : String}
    {p q : String × Table}
    (hp : p ∈ tablesWith m tbls) (hq : q ∈ tablesWith m tbls) (hne : p ≠ q) :
    invoke tbls (.unqualified m) = .error .AmbiguousMethod := by
  obtain ⟨x, y, tl, hl⟩ := exists_cons_cons_of_two_mem hp hq hne
  simp only [invoke]
  rw [hl]

theorem invoke_qualified_ok {tbls : List (String × Table)} {c m b : String}
    {p : String × Table}
    (hf : findTable tbls c = some p) (hm : ovLookup p.2 m = some b) :
    invoke tbls (.qualified c m) = .ok b := by
  simp [invoke, hf, hm]

/-- Claim C5: when the resolved tables of a bound contain the method `m` under
two distinct capabilities `A` and `B`, an unqualified call to `m` through
`callFixed` fails `AmbiguousMethod`, while the call qualified as `A.m`
succeeds with `A`'s body. -/
theorem claim_ambiguous_unqualified_call
    (r : Registry) (bound : Bound) (types : List String)
    (tbls : List (String × Table)) (A B m bA : String) (tblA : Table)
    (pB : String × Table)
    (hres : resolveFixed r bound types = .ok tbls)
    (hfA : findTable tbls A = some (A, tblA))
    (hmA : ovLookup tblA m = some bA)
    (hB : pB ∈ tbls) (hBname : pB.1 = B)
    (hmB : (ovLookup pB.2 m).isSome)
    (hne : A ≠ B) :
    callFixed r bound types (.unqualified m) = .error .AmbiguousMethod ∧
    callFixed r bound types (.qualified A m) = .ok bA := by
  have hcall : ∀ call, callFixed r bound types call = invoke tbls call := by
    intro call
    simp [callFixed, hres]
  constructor
  · rw [hcall]
    have hpA : (A, tblA) ∈ tablesWith m tbls := by
      refine List.mem_filter.mpr ⟨(findTable_mem hfA).1, ?_⟩
      simp [hmA]
    have hpB : pB ∈ tablesWith m tbls := by
      refine List.mem_filter.mpr ⟨hB, ?_⟩
      simpa using hmB
    refine invoke_unqualified_ambiguous hpA hpB ?_
    intro he
    exact hne (by rw [← hBname, ← he])
  · rw [hcall]
    exact invoke_qualified_ok hfA hmA

/-- Witness for C5, the spec's scenario: capabilities `A{m()}` and `B{m()}`
both supply a default for `m`, and type `X` conforms to both with no override;
under the bound `{A, B}` the unqualified call to `m` fails `AmbiguousMethod`
while the qualified call `A.m` succeeds. -/
theorem claim_ambiguous_unqualified_call_witness :
    callFixed
      (Registry.mk
        [Capability.mk "A" [MethodSig.mk "m" (some "(default.A.m)")],
         Capability.mk "B" [MethodSig.mk "m" (some "(default.B.m)")]]
        [Conformance.mk "X" "A" [("m", "(default.A.m)")],
         Conformance.mk "X" "B" [("m", "(default.B.m)")]]
        RegState.Open)
      (.conj ["A", "B"]) ["X"] (.unqualified "m") = .error .AmbiguousMethod ∧
    callFixed
      (Registry.mk
        [Capability.mk "A" [MethodSig.mk "m" (some "(default.A.m)")],
         Capability.mk "B" [MethodSig.mk "m" (some "(default.B.m)")]]
        [Conformance.mk "X" "A" [("m", "(default.A.m)")],
         Conformance.mk "X" "B" [("m", "(default.B.m)")]]
        RegState.Open)
      (.conj ["A", "B"]) ["X"] (.qualified "A" "m") = .ok "(default.A.m)" :=
  claim_ambiguous_unqualified_call
    (Registry.mk
      [Capability.mk "A" [MethodSig.mk "m" (some "(default.A.m)")],
       Capability.mk "B" [MethodSig.mk "m" (some "(default.B.m)")]]
      [Conformance.mk "X" "A" [("m", "(default.A.m)")],
       Conformance.mk "X" "B" [("m", "(default.B.m)")]]
      RegState.Open)
    (.conj ["A", "B"]) ["X"]
    [("A", [("m", "(default.A.m)")]), ("B", [("m", "(default.B.m)")])]
    "A" "B" "m" "(default.A.m)" [("m", "(default.A.m)")]
    ("B", [("m", "(default.B.m)")])
    (by rfl) (by rfl) (by rfl) (by decide) (by rfl) (by rfl) (by decide)

theorem effectiveBody_none_iff {sig : MethodSig} {ov : Table} :
    effectiveBody sig ov = none ↔
      sig.defaultBody = none ∧ ovLookup ov sig.name = none := by
  unfold effectiveBody
  cases h : ovLookup ov sig.name <;> simp [h]

/-- Claim C7: declaring a conformance fails `MissingImplementation` exactly
when some method of the capability has no default body and no entry in the
overrides; when every method is covered, the conformance is registered and the
uncovered methods are filled in with the capability defaults. -/
theorem claim_conformance_missing_implementation
    (r : Registry) (T C : String) (cap : Capability) (ov : Table)
    (hopen : r.state = .Open)
    (hfind : findCap r.caps C = some cap)
    (hnoconf : findConf r.confs T C = none)
    (hnd : (cap.methods.map MethodSig.name).Nodup) :
    (declareConformance r T C ov = .error .MissingImplementation ↔
      ∃ sig ∈ cap.methods, sig.defaultBody = none ∧ ovLookup ov sig.name = none) ∧
    ((∀ sig ∈ cap.methods, ovLookup ov sig.name = none → sig.defaultBody.isSome) →
      ∃ r' tbl, declareConformance r T C ov = .ok r' ∧
        r'.confs = r.confs ++ [⟨T, C, tbl⟩] ∧
        ∀ sig ∈ cap.methods, ovLookup ov sig.name = none →
          ovLookup tbl sig.name = sig.defaultBody) := by
  have hred : declareConformance r T C ov =
      match buildTable cap.methods ov with
      | .error e => .error e
      | .ok tbl => .ok { r with confs := r.confs ++ [⟨T, C, tbl⟩] } := by
    simp only [declareConformance, hopen, hfind, hnoconf]
  constructor
  · cases hb : buildTable cap.methods ov with
    | error e =>
      rw [hred, hb]
      constructor
      · intro he
        simp only [Except.error.injEq] at he
        subst he
        obtain ⟨sig, hs, hss⟩ := buildTable_error_iff.mp hb
        exact ⟨sig, hs, effectiveBody_none_iff.mp hss⟩
      · rintro ⟨sig, hs, hd, ho⟩
        have := buildTable_error_iff.mpr ⟨sig, hs, effectiveBody_none_iff.mpr ⟨hd, ho⟩⟩
        rw [hb] at this
        simp only [Except.error.injEq] at this
        rw [this]
    | ok tbl =>
      rw [hred, hb]
      constructor
      · intro he
        exact absurd he (by simp)
      · rintro ⟨sig, hs, hd, ho⟩
        have := buildTable_error_iff.mpr ⟨sig, hs, effectiveBody_none_iff.mpr ⟨hd, ho⟩⟩
        rw [hb] at this
        exact absurd this (by simp)
  · intro hall
    have hsome : ∀ sig ∈ cap.methods, (effectiveBody sig ov).isSome := by
      intro sig hs
      unfold effectiveBody
      cases ho : ovLookup ov sig.name with
      | some b => simp
      | none =>
        have := hall sig hs ho
        cases hd : sig.defaultBody with
        | none => rw [hd] at this; exact absurd this (by simp)
        | some b => simp
    obtain ⟨tbl, htbl⟩ := buildTable_ok_of_all hsome
    refine ⟨{ r with confs := r.confs ++ [⟨T, C, tbl⟩] }, tbl, ?_, rfl, ?_⟩
    · rw [hred, htbl]
    · intro sig hs ho
      have hentry := buildTable_ok_entry hnd htbl sig hs
      rw [hentry]
      unfold effectiveBody
      rw [ho]

/-- Witness for C7: capability `Cap` has method `m` with no default; declaring
a conformance with empty overrides fails `MissingImplementation`. -/
theorem claim_conformance_missing_implementation_witness :
    (declareConformance
        (Registry.mk [Capability.mk "Cap" [MethodSig.mk "m" none]] []
          RegState.Open)
        "T" "Cap" [] = .error .MissingImplementation ↔
      ∃ sig ∈ [MethodSig.mk "m" none],
        sig.defaultBody = none ∧ ovLookup [] sig.name = none) ∧
    ((∀ sig ∈ [MethodSig.mk "m" none],
        ovLookup [] sig.name = none → sig.defaultBody.isSome) →
      ∃ r' tbl, declareConformance
          (Registry.mk [Capability.mk "Cap" [MethodSig.mk "m" none]] []
            RegState.Open)
          "T" "Cap" [] = .ok r' ∧
        r'.confs = [] ++ [⟨"T", "Cap", tbl⟩] ∧
        ∀ sig ∈ [MethodSig.mk "m" none], ovLookup [] sig.name = none →
          ovLookup tbl sig.name = sig.defaultBody) :=
  claim_conformance_missing_implementation
    (Registry.mk [Capability.mk "Cap" [MethodSig.mk "m" none]] [] RegState.Open)
    "T" "Cap" (Capability.mk "Cap" [MethodSig.mk "m" none]) []
    (by rfl) (by rfl) (by rfl) (by decide)

/-- Claim C8: re-declaring an existing (type, capability) conformance fails
`DuplicateConformance`, and running the failing declaration leaves the
registry exactly as after the first successful call — no partial mutation. -/
theorem claim_duplicate_conformance_rejected
    (r0 r1 : Registry) (T C : String) (ov ov2 : Table)
    (h : declareConformance r0 T C ov = .ok r1) :
    declareConformance r1 T C ov2 = .error .DuplicateConformance ∧
    runDecl r1 (fun s => declareConformance s T C ov2) = r1 := by
  obtain ⟨cap, tbl, hst, hfind, hconf, hbuild, hr1⟩ := declareConformance_ok h
  have hst1 : r1.state = .Open := by
    rw [hr1]
    exact hst
  have hcaps1 : r1.caps = r0.caps := by rw [hr1]
  have hconfs1 : r1.confs = r0.confs ++ [⟨T, C, tbl⟩] := by rw [hr1]
  have hfind1 : findCap r1.caps C = some cap := by
    rw [hcaps1]
    exact hfind
  have hconf1 : findConf r1.confs T C = some ⟨T, C, tbl⟩ := by
    rw [hconfs1, findConf_append hconf]
    simp [findConf]
  have herr : declareConformance r1 T C ov2 = .error .DuplicateConformance := by
    simp only [declareConformance, hst1, hfind1, hconf1]
  exact ⟨herr, by simp [runDecl, herr]⟩

/-- Witness for C8: declaring `(T, Cap)` once succeeds; the second declaration
fails `DuplicateConformance` and the registry is unchanged. -/
theorem claim_duplicate_conformance_rejected_witness :
    declareConformance
      (Registry.mk [Capability.mk "Cap" [MethodSig.mk "m" (some "(d)")]]
        [Conformance.mk "T" "Cap" [("m", "(d)")]] RegState.Open)
      "T" "Cap" [("m", "(x)")] = .error .DuplicateConformance ∧
    runDecl
      (Registry.mk [Capability.mk "Cap" [MethodSig.mk "m" (some "(d)")]]
        [Conformance.mk "T" "Cap" [("m", "(d)")]] RegState.Open)
      (fun s => declareConformance s "T" "Cap" [("m", "(x)")]) =
      Registry.mk [Capability.mk "Cap" [MethodSig.mk "m" (some "(d)")]]
        [Conformance.mk "T" "Cap" [("m", "(d)")]] RegState.Open :=
  claim_duplicate_conformance_rejected
    (Registry.mk [Capability.mk "Cap" [MethodSig.mk "m" (some "(d)")]] []
      RegState.Open)
    (Registry.mk [Capability.mk "Cap" [MethodSig.mk "m" (some "(d)")]]
      [Conformance.mk "T" "Cap" [("m", "(d)")]] RegState.Open)
    "T" "Cap" [] [("m", "(x)")] (by rfl)

/-- Claim C9: after `seal()`, both declaration operations fail
`RegistryClosed` and leave the registry unchanged; the sealed state is
reached and sealing is one-way (idempotent, with no operation returning the
registry to `Open`). -/
theorem claim_sealed_rejects_declarations
    (r : Registry) (n : String) (ms : List MethodSig) (T C : String)
    (ov : Table) :
    declareCapability (sealRegistry r) n ms = .error .RegistryClosed ∧
    declareConformance (sealRegistry r) T C ov = .error .RegistryClosed ∧
    runDecl (sealRegistry r) (fun s => declareCapability s n ms) =
      sealRegistry r ∧
    runDecl (sealRegistry r) (fun s => declareConformance s T C ov) =
      sealRegistry r ∧
    (sealRegistry r).state = .Sealed ∧
    sealRegistry (sealRegistry r) = sealRegistry r :=
  ⟨rfl, rfl, rfl, rfl, rfl, rfl⟩

/-- Claim C10: the default body of example 2's trait ignores its receiver —
any two `StructName` values, whatever their `struct_field` contents, yield the
same string `"(Default implementation...)"` from `function_name`. -/
theorem claim_default_body_ignores_receiver :
    ∀ s1 s2 : Example2.StructName,
      Example2.StructName.function_name s1 =
        Example2.StructName.function_name s2 ∧
      Example2.StructName.function_name s1 = "(Default implementation...)" :=
  fun _ _ => ⟨rfl, rfl⟩
